import Mathlib

/-!
Shallow embedding of the `NFTFusionGameFiFHE` Solidity contract
(src/contracts/NFT_Fusion_GameFi.sol) and of the frontend helpers
`FHEEncryptAttributes` / `FHEDecryptAttributes`
(src/frontend/web/src/App.tsx), together with theorems settling the
specification claims about them.

Contract model: each external function is a pure function from a message
context and the contract state to `Except ContractError (State × events)`.
A revert is an `Except.error`; by EVM semantics a reverted call rolls the
whole state back, which the `Except` embedding encodes (an error carries no
state).  `euint32` ciphertexts are modelled as symbolic computation terms
whose `handle` (the fhevm `toBytes32` handle) is a deterministic injective
identifier of the term and whose `eval` is the plaintext semantics
(arithmetic modulo 2^32).  `keccak256` over `abi.encode(cts, address(this))`
is modelled as an injective pairing-based encoding that never returns 0
(collision-free idealization).
-/

/-- The euint32 modulus 2^32. -/
def euM : Nat := 4294967296

/-- An euint32 ciphertext, modelled as the symbolic term of FHE operations
that produced it.  `uninit` is the uninitialized (zero) handle; `enc v` is
`FHE.asEuint32 v` (the stored value is already reduced mod 2^32); `addCt`
and `divCt` are `FHE.add` and `FHE.div` on ciphertexts. -/
inductive Euint32 where
  | uninit : Euint32
  | enc : Nat → Euint32
  | addCt : Euint32 → Euint32 → Euint32
  | divCt : Euint32 → Euint32 → Euint32
deriving DecidableEq, Repr

/-- `FHE.asEuint32`: trivial encryption of a plaintext, truncated mod 2^32. -/
def asEuint32 (v : Nat) : Euint32 := .enc (v % euM)

/-- `euint32.isInitialized`: only the uninitialized handle is not initialized. -/
def Euint32.isInit : Euint32 → Bool
  | .uninit => false
  | _ => true

/-- Plaintext semantics of a ciphertext term: addition is modulo 2^32,
division is truncating; division by an encrypted zero yields the all-ones
value (TFHE unsigned-division semantics). -/
def Euint32.eval : Euint32 → Nat
  | .uninit => 0
  | .enc v => v % euM
  | .addCt a b => (a.eval + b.eval) % euM
  | .divCt a b => if b.eval = 0 then euM - 1 else a.eval / b.eval

/-- Modelled from the fhevm ciphertext handles (`euint32.toBytes32`):
a deterministic, injective identifier of the ciphertext computation, zero
exactly for the uninitialized handle. -/
def Euint32.handle : Euint32 → Nat
  | .uninit => 0
  | .enc v => 4 * Nat.pair v 0 + 1
  | .addCt a b => 4 * Nat.pair a.handle b.handle + 2
  | .divCt a b => 4 * Nat.pair a.handle b.handle + 3

/-- Injective encoding of a list of naturals, used by the keccak model. -/
def encodeNatList : List Nat → Nat
  | [] => 0
  | x :: rest => Nat.pair x (encodeNatList rest) + 1

/-- `_hashCiphertexts`: `keccak256(abi.encode(cts, address(this)))`.
keccak256 is modelled as an injective pairing-based encoding shifted by one,
so that no input hashes to 0 (collision-free idealization of keccak). -/
def hashCiphertexts (cts : List Nat) (addr : Nat) : Nat :=
  Nat.pair (encodeNatList cts) addr + 1

/-- The contract's named errors (`error` declarations). -/
inductive ContractError where
  | NotOwner
  | NotProvider
  | Paused
  | CooldownActive
  | BatchClosed
  | InvalidBatch
  | NotEnoughNFTs
  | InvalidNFT
  | ReplayAttempt
  | StateMismatch
  | InvalidProof
  | AlreadyInited
  | NotInited
deriving DecidableEq, Repr

/-- `struct NFTData`. -/
structure NFTData where
  attr1 : Euint32
  attr2 : Euint32
  attr3 : Euint32
  inited : Bool
deriving DecidableEq, Repr

/-- `struct Batch`; the per-index mappings are total functions with the
Solidity mapping default. -/
structure Batch where
  isOpen : Bool
  numNFTs : Nat
  nftOwners : Nat → Nat
  nftData : Nat → NFTData

/-- `struct DecryptionContext`. -/
structure DecryptionContext where
  batchId : Nat
  stateHash : Nat
  processed : Bool
deriving DecidableEq, Repr

/-- The full contract storage.  `thisAddr` is `address(this)` and
`nextRequestId` models the fhevm gateway's request-id counter backing
`FHE.requestDecryption` (fresh, strictly increasing ids). -/
structure ContractState where
  owner : Nat
  isProvider : Nat → Bool
  paused : Bool
  cooldownSeconds : Nat
  lastSubmissionTime : Nat → Nat
  lastRequestTime : Nat → Nat
  currentBatchId : Nat
  batches : Nat → Batch
  decryptionContexts : Nat → DecryptionContext
  lastTokenId : Nat
  nextRequestId : Nat
  thisAddr : Nat

/-- Message context of a call: `msg.sender` and `block.timestamp`. -/
structure Msg where
  sender : Nat
  timestamp : Nat
deriving DecidableEq, Repr

/-- The contract's events. -/
inductive ContractEvent where
  | ProviderAdded (provider : Nat)
  | ProviderRemoved (provider : Nat)
  | Paused (account : Nat)
  | Unpaused (account : Nat)
  | CooldownSet (oldV newV : Nat)
  | BatchOpened (batchId : Nat)
  | BatchClosedE (batchId : Nat)
  | NFTSubmitted (ownerA tokenId batchId : Nat)
  | FusionRequested (requestId batchId stateHash : Nat)
  | FusionCompleted (requestId batchId newTokenId : Nat) (attrs : Nat × Nat × Nat)
deriving DecidableEq, Repr

/-- A Solidity mapping's default `Batch`. -/
def emptyBatch : Batch :=
  { isOpen := false
    numNFTs := 0
    nftOwners := fun _ => 0
    nftData := fun _ => { attr1 := .uninit, attr2 := .uninit, attr3 := .uninit, inited := false } }

/-- A mapping's default `DecryptionContext`. -/
def emptyCtx : DecryptionContext := { batchId := 0, stateHash := 0, processed := false }

/-- The constructor: deployer becomes owner and provider, cooldown 30,
`currentBatchId = 1`, `lastTokenId = 0`. -/
def initState (deployer thisAddr : Nat) : ContractState :=
  { owner := deployer
    isProvider := Function.update (fun _ => false) deployer true
    paused := false
    cooldownSeconds := 30
    lastSubmissionTime := fun _ => 0
    lastRequestTime := fun _ => 0
    currentBatchId := 1
    batches := fun _ => emptyBatch
    decryptionContexts := fun _ => emptyCtx
    lastTokenId := 0
    nextRequestId := 0
    thisAddr := thisAddr }

/-- `addProvider` (onlyOwner). -/
def addProvider (m : Msg) (p : Nat) (s : ContractState) :
    Except ContractError (ContractState × List ContractEvent) :=
  if m.sender ≠ s.owner then .error .NotOwner
  else .ok ({ s with isProvider := Function.update s.isProvider p true },
            [.ProviderAdded p])

/-- `removeProvider` (onlyOwner). -/
def removeProvider (m : Msg) (p : Nat) (s : ContractState) :
    Except ContractError (ContractState × List ContractEvent) :=
  if m.sender ≠ s.owner then .error .NotOwner
  else .ok ({ s with isProvider := Function.update s.isProvider p false },
            [.ProviderRemoved p])

/-- `pause` (onlyOwner whenNotPaused). -/
def pause (m : Msg) (s : ContractState) :
    Except ContractError (ContractState × List ContractEvent) :=
  if m.sender ≠ s.owner then .error .NotOwner
  else if s.paused then .error .Paused
  else .ok ({ s with paused := true }, [.Paused m.sender])

/-- `unpause` (onlyOwner). -/
def unpause (m : Msg) (s : ContractState) :
    Except ContractError (ContractState × List ContractEvent) :=
  if m.sender ≠ s.owner then .error .NotOwner
  else .ok ({ s with paused := false }, [.Unpaused m.sender])

/-- `setCooldownSeconds` (onlyOwner). -/
def setCooldownSeconds (m : Msg) (c : Nat) (s : ContractState) :
    Except ContractError (ContractState × List ContractEvent) :=
  if m.sender ≠ s.owner then .error .NotOwner
  else .ok ({ s with cooldownSeconds := c }, [.CooldownSet s.cooldownSeconds c])

/-- `openBatch` (onlyOwner): increments `currentBatchId` and opens the new
batch, resetting its `numNFTs` to 0. -/
def openBatch (m : Msg) (s : ContractState) :
    Except ContractError (ContractState × List ContractEvent) :=
  if m.sender ≠ s.owner then .error .NotOwner
  else
    let nb := s.currentBatchId + 1
    let b' := { s.batches nb with isOpen := true, numNFTs := 0 }
    .ok ({ s with currentBatchId := nb, batches := Function.update s.batches nb b' },
         [.BatchOpened nb])

/-- `closeBatch` (onlyOwner). -/
def closeBatch (m : Msg) (s : ContractState) :
    Except ContractError (ContractState × List ContractEvent) :=
  if m.sender ≠ s.owner then .error .NotOwner
  else if !(s.batches s.currentBatchId).isOpen then .error .BatchClosed
  else
    let b' := { s.batches s.currentBatchId with isOpen := false }
    .ok ({ s with batches := Function.update s.batches s.currentBatchId b' },
         [.BatchClosedE s.currentBatchId])

/-- `submitNFT` (onlyProvider whenNotPaused checkCooldown(true)): appends an
entry at index `numNFTs` of the current batch. -/
def submitNFT (m : Msg) (a1 a2 a3 : Euint32) (s : ContractState) :
    Except ContractError (ContractState × List ContractEvent) :=
  if !(s.isProvider m.sender) then .error .NotProvider
  else if s.paused then .error .Paused
  else if m.timestamp < s.lastSubmissionTime m.sender + s.cooldownSeconds then
    .error .CooldownActive
  else if !(s.batches s.currentBatchId).isOpen then .error .BatchClosed
  else if !a1.isInit || !a2.isInit || !a3.isInit then .error .NotInited
  else
    let cur := s.currentBatchId
    let b := s.batches cur
    let idx := b.numNFTs
    let b' := { b with
      nftOwners := Function.update b.nftOwners idx m.sender
      nftData := Function.update b.nftData idx { attr1 := a1, attr2 := a2, attr3 := a3, inited := true }
      numNFTs := idx + 1 }
    .ok ({ s with
            batches := Function.update s.batches cur b'
            lastSubmissionTime := Function.update s.lastSubmissionTime m.sender m.timestamp },
         [.NFTSubmitted m.sender idx cur])

/-- The summation loop shared verbatim by `fuseNFTs` and `myCallback`:
iterates over the given indices, reverting with `InvalidNFT` on an
uninitialized entry, and accumulates the three attribute sums with `FHE.add`. -/
def sumLoop (b : Batch) : List Nat → Euint32 × Euint32 × Euint32 →
    Except ContractError (Euint32 × Euint32 × Euint32)
  | [], acc => .ok acc
  | i :: rest, acc =>
    let nft := b.nftData i
    if nft.inited then
      sumLoop b rest (.addCt acc.1 nft.attr1, .addCt acc.2.1 nft.attr2, .addCt acc.2.2 nft.attr3)
    else .error .InvalidNFT

/-- The averaging computation shared verbatim by `fuseNFTs` and `myCallback`:
sum all entries of the batch, then divide each sum by
`FHE.asEuint32(numNFTs)`. -/
def batchAvgCts (b : Batch) : Except ContractError (Euint32 × Euint32 × Euint32) := do
  let (s1, s2, s3) ← sumLoop b (List.range b.numNFTs) (asEuint32 0, asEuint32 0, asEuint32 0)
  pure (.divCt s1 (asEuint32 b.numNFTs), .divCt s2 (asEuint32 b.numNFTs), .divCt s3 (asEuint32 b.numNFTs))

/-- The commitment hash of a batch's averaged ciphertext triple. -/
def avgHash (t : Euint32 × Euint32 × Euint32) (addr : Nat) : Nat :=
  hashCiphertexts [t.1.handle, t.2.1.handle, t.2.2.handle] addr

/-- `fuseNFTs` (onlyProvider whenNotPaused checkCooldown(false)): validates
the batch, averages its encrypted attributes, commits to the ciphertext
triple via the state hash, and records a `DecryptionContext` under the fresh
oracle request id. -/
def fuseNFTs (m : Msg) (batchId : Nat) (s : ContractState) :
    Except ContractError (ContractState × List ContractEvent) :=
  if !(s.isProvider m.sender) then .error .NotProvider
  else if s.paused then .error .Paused
  else if m.timestamp < s.lastRequestTime m.sender + s.cooldownSeconds then
    .error .CooldownActive
  else if batchId = 0 ∨ batchId > s.currentBatchId then .error .InvalidBatch
  else if (s.batches batchId).numNFTs < 2 then .error .NotEnoughNFTs
  else
    match batchAvgCts (s.batches batchId) with
    | .error e => .error e
    | .ok t =>
      let sh := avgHash t s.thisAddr
      let rid := s.nextRequestId
      .ok ({ s with
              decryptionContexts :=
                Function.update s.decryptionContexts rid
                  { batchId := batchId, stateHash := sh, processed := false }
              nextRequestId := rid + 1
              lastRequestTime := Function.update s.lastRequestTime m.sender m.timestamp },
           [.FusionRequested rid batchId sh])

/-- `myCallback`: replay guard, recomputation of the averaged ciphertexts
and of the commitment hash from the current batch state, state-hash check,
oracle signature check (`sigOk` is the verdict of `FHE.checkSignatures`),
decoding of the three plaintext words, token mint and completion event. -/
def myCallback (requestId : Nat) (cleartexts : List Nat) (sigOk : Bool)
    (s : ContractState) :
    Except ContractError (ContractState × List ContractEvent) :=
  if (s.decryptionContexts requestId).processed then .error .ReplayAttempt
  else
    match batchAvgCts (s.batches (s.decryptionContexts requestId).batchId) with
    | .error e => .error e
    | .ok t =>
      if avgHash t s.thisAddr ≠ (s.decryptionContexts requestId).stateHash then
        .error .StateMismatch
      else if !sigOk then .error .InvalidProof
      else
        .ok ({ s with
                lastTokenId := s.lastTokenId + 1
                decryptionContexts :=
                  Function.update s.decryptionContexts requestId
                    { s.decryptionContexts requestId with processed := true } },
             [.FusionCompleted requestId (s.decryptionContexts requestId).batchId
                (s.lastTokenId + 1)
                (cleartexts.getD 0 0, cleartexts.getD 1 0, cleartexts.getD 2 0)])

/-- An external call to the contract. -/
inductive Op where
  | addProvider (p : Nat)
  | removeProvider (p : Nat)
  | pause
  | unpause
  | setCooldownSeconds (c : Nat)
  | openBatch
  | closeBatch
  | submitNFT (a1 a2 a3 : Euint32)
  | fuseNFTs (batchId : Nat)
  | myCallback (requestId : Nat) (cleartexts : List Nat) (sigOk : Bool)
deriving DecidableEq, Repr

/-- One external call of the contract. -/
def stepFn (m : Msg) (op : Op) (s : ContractState) :
    Except ContractError (ContractState × List ContractEvent) :=
  match op with
  | .addProvider p => addProvider m p s
  | .removeProvider p => removeProvider m p s
  | .pause => pause m s
  | .unpause => unpause m s
  | .setCooldownSeconds c => setCooldownSeconds m c s
  | .openBatch => openBatch m s
  | .closeBatch => closeBatch m s
  | .submitNFT a1 a2 a3 => submitNFT m a1 a2 a3 s
  | .fuseNFTs batchId => fuseNFTs m batchId s
  | .myCallback rid cl sig => myCallback rid cl sig s

/-- The state observed after a call: on a revert the EVM rolls back to the
pre-call state. -/
def execState (m : Msg) (op : Op) (s : ContractState) : ContractState :=
  match stepFn m op s with
  | .ok (s', _) => s'
  | .error _ => s

/-- The events emitted by a call (none when it reverts). -/
def execEvents (m : Msg) (op : Op) (s : ContractState) : List ContractEvent :=
  match stepFn m op s with
  | .ok (_, ev) => ev
  | .error _ => []

instance {ε α : Type} [DecidableEq ε] [DecidableEq α] : DecidableEq (Except ε α) := fun x y =>
  match x, y with
  | .ok a, .ok b =>
    if h : a = b then isTrue (by rw [h]) else isFalse (fun hc => h (by cases hc; rfl))
  | .error a, .error b =>
    if h : a = b then isTrue (by rw [h]) else isFalse (fun hc => h (by cases hc; rfl))
  | .ok _, .error _ => isFalse (fun hc => by cases hc)
  | .error _, .ok _ => isFalse (fun hc => by cases hc)

/-- States reachable from a freshly deployed contract by external calls. -/
inductive Reachable : ContractState → Prop
  | init (deployer thisAddr : Nat) : Reachable (initState deployer thisAddr)
  | step {s s' : ContractState} {ev : List ContractEvent} (m : Msg) (op : Op) :
      Reachable s → stepFn m op s = .ok (s', ev) → Reachable s'

/-! ### Basic facts about the embedding -/

theorem hashCiphertexts_ne_zero (cts : List Nat) (addr : Nat) :
    hashCiphertexts cts addr ≠ 0 := by
  unfold hashCiphertexts
  exact Nat.succ_ne_zero _

theorem eval_lt (e : Euint32) : e.eval < euM := by
  induction e with
  | uninit => simp [Euint32.eval, euM]
  | enc v => exact Nat.mod_lt _ (by simp [euM])
  | addCt a b iha ihb => exact Nat.mod_lt _ (by simp [euM])
  | divCt a b iha ihb =>
    simp only [Euint32.eval]
    split
    · simp [euM]
    · exact Nat.lt_of_le_of_lt (Nat.div_le_self _ _) iha

theorem sumLoop_eval (b : Batch) (l : List Nat) (acc : Euint32 × Euint32 × Euint32)
    (h : ∀ i ∈ l, (b.nftData i).inited = true) :
    ∃ t : Euint32 × Euint32 × Euint32,
      sumLoop b l acc = .ok t ∧
      t.1.eval = (acc.1.eval + (l.map (fun i => (b.nftData i).attr1.eval)).sum) % euM ∧
      t.2.1.eval = (acc.2.1.eval + (l.map (fun i => (b.nftData i).attr2.eval)).sum) % euM ∧
      t.2.2.eval = (acc.2.2.eval + (l.map (fun i => (b.nftData i).attr3.eval)).sum) % euM := by
  induction l generalizing acc with
  | nil =>
    refine ⟨acc, rfl, ?_, ?_, ?_⟩ <;>
      simp [Nat.mod_eq_of_lt (eval_lt _)]
  | cons i rest ih =>
    have hi : (b.nftData i).inited = true := h i (List.mem_cons_self i rest)
    have hrest : ∀ j ∈ rest, (b.nftData j).inited = true :=
      fun j hj => h j (List.mem_cons_of_mem i hj)
    obtain ⟨t, hok, h1, h2, h3⟩ :=
      ih (.addCt acc.1 (b.nftData i).attr1, .addCt acc.2.1 (b.nftData i).attr2,
          .addCt acc.2.2 (b.nftData i).attr3) hrest
    refine ⟨t, ?_, ?_, ?_, ?_⟩
    · simp only [sumLoop, hi, if_pos]
      exact hok
    · rw [h1]; simp only [Euint32.eval, List.map_cons, List.sum_cons]
      rw [Nat.mod_add_mod, Nat.add_assoc]
    · rw [h2]; simp only [Euint32.eval, List.map_cons, List.sum_cons]
      rw [Nat.mod_add_mod, Nat.add_assoc]
    · rw [h3]; simp only [Euint32.eval, List.map_cons, List.sum_cons]
      rw [Nat.mod_add_mod, Nat.add_assoc]

theorem batchAvgCts_ok (b : Batch)
    (hinit : ∀ i, i < b.numNFTs → (b.nftData i).inited = true) :
    ∃ t, batchAvgCts b = .ok t := by
  obtain ⟨⟨t1, t2, t3⟩, hok, -⟩ :=
    sumLoop_eval b (List.range b.numNFTs) (asEuint32 0, asEuint32 0, asEuint32 0)
      (fun i hi => hinit i (List.mem_range.mp hi))
  exact ⟨(.divCt t1 (asEuint32 b.numNFTs), .divCt t2 (asEuint32 b.numNFTs),
          .divCt t3 (asEuint32 b.numNFTs)), by simp [batchAvgCts, hok]⟩

theorem execState_of_error {m : Msg} {op : Op} {s : ContractState} {e : ContractError}
    (h : stepFn m op s = .error e) : execState m op s = s := by
  unfold execState
  rw [h]

theorem execEvents_of_error {m : Msg} {op : Op} {s : ContractState} {e : ContractError}
    (h : stepFn m op s = .error e) : execEvents m op s = [] := by
  unfold execEvents
  rw [h]

/-! ### Claims -/

/-- C1: if `myCallback` is invoked for a not-yet-processed request and the
commitment hash recomputed from the current on-chain batch state (the
elementwise euint32 average of the batch's three attributes, hashed together
with the contract address) differs from the `stateHash` stored in the
request's `DecryptionContext`, then `myCallback` reverts with
`StateMismatch`; the oracle proof verdict `sig` is universally quantified,
so the rejection happens regardless of proof validity (the proof is never
consulted). -/
theorem c1_state_mismatch_rejects (s : ContractState) (m : Msg) (rid : Nat)
    (cl : List Nat) (sig : Bool) (t : Euint32 × Euint32 × Euint32)
    (hproc : (s.decryptionContexts rid).processed = false)
    (havg : batchAvgCts (s.batches (s.decryptionContexts rid).batchId) = .ok t)
    (hmm : avgHash t s.thisAddr ≠ (s.decryptionContexts rid).stateHash) :
    stepFn m (.myCallback rid cl sig) s = .error .StateMismatch := by
  simp only [stepFn, myCallback, hproc, havg, Bool.false_eq_true, if_false]
  rw [if_pos hmm]

theorem c1_state_mismatch_witness :
    stepFn ⟨5, 0⟩ (.myCallback 0 [] false) (initState 1 77) = .error .StateMismatch :=
  c1_state_mismatch_rejects (initState 1 77) ⟨5, 0⟩ 0 [] false
    (.divCt (asEuint32 0) (asEuint32 0), .divCt (asEuint32 0) (asEuint32 0),
     .divCt (asEuint32 0) (asEuint32 0))
    (by decide) (by decide) (by decide)

/-- C4: `fuseNFTs` on a batch holding fewer than two entries always reverts,
whoever the caller is: no state change is committed (in particular no
decryption context is recorded and the oracle request counter is untouched)
and no event is emitted. -/
theorem c4_fuse_small_batch_reverts (s : ContractState) (m : Msg) (bid : Nat)
    (h : (s.batches bid).numNFTs < 2) :
    (∃ e, stepFn m (.fuseNFTs bid) s = .error e) ∧
      execState m (.fuseNFTs bid) s = s ∧ execEvents m (.fuseNFTs bid) s = [] := by
  have hE : ∃ e, stepFn m (.fuseNFTs bid) s = .error e := by
    simp only [stepFn]
    unfold fuseNFTs
    split
    · exact ⟨_, rfl⟩
    split
    · exact ⟨_, rfl⟩
    split
    · exact ⟨_, rfl⟩
    split
    · exact ⟨_, rfl⟩
    exact ⟨_, rfl⟩
  obtain ⟨e, hE⟩ := hE
  exact ⟨⟨e, hE⟩, execState_of_error hE, execEvents_of_error hE⟩

theorem c4_witness :
    (∃ e, stepFn ⟨1, 50⟩ (.fuseNFTs 1) (initState 1 77) = .error e) ∧
      execState ⟨1, 50⟩ (.fuseNFTs 1) (initState 1 77) = initState 1 77 ∧
      execEvents ⟨1, 50⟩ (.fuseNFTs 1) (initState 1 77) = [] :=
  c4_fuse_small_batch_reverts (initState 1 77) ⟨1, 50⟩ 1 (by decide)

/-- C7: every contract operation is atomic on error.  A revert is an
`Except.error`, which by EVM semantics (encoded by the embedding: an error
carries no successor state) rolls the whole storage back: whenever any
external function reverts with one of the named errors, the observed
post-call state is exactly the pre-call state and no event is emitted. -/
theorem c7_revert_is_atomic (m : Msg) (op : Op) (s : ContractState)
    (e : ContractError) (h : stepFn m op s = .error e) :
    execState m op s = s ∧ execEvents m op s = [] :=
  ⟨execState_of_error h, execEvents_of_error h⟩

theorem c7_witness :
    execState ⟨2, 0⟩ .pause (initState 1 77) = initState 1 77 ∧
      execEvents ⟨2, 0⟩ .pause (initState 1 77) = [] :=
  c7_revert_is_atomic ⟨2, 0⟩ .pause (initState 1 77) .NotOwner rfl

/-! ### Inversion lemmas: what a successful call did to the state -/

theorem addProvider_ok {m : Msg} {p : Nat} {s s' : ContractState} {ev : List ContractEvent}
    (h : stepFn m (.addProvider p) s = .ok (s', ev)) :
    s' = { s with isProvider := Function.update s.isProvider p true } := by
  simp only [stepFn] at h
  unfold addProvider at h
  split at h
  · cases h
  · cases h; rfl

theorem removeProvider_ok {m : Msg} {p : Nat} {s s' : ContractState} {ev : List ContractEvent}
    (h : stepFn m (.removeProvider p) s = .ok (s', ev)) :
    s' = { s with isProvider := Function.update s.isProvider p false } := by
  simp only [stepFn] at h
  unfold removeProvider at h
  split at h
  · cases h
  · cases h; rfl

theorem pause_ok {m : Msg} {s s' : ContractState} {ev : List ContractEvent}
    (h : stepFn m .pause s = .ok (s', ev)) :
    s' = { s with paused := true } := by
  simp only [stepFn] at h
  unfold pause at h
  split at h
  · cases h
  split at h
  · cases h
  · cases h; rfl

theorem unpause_ok {m : Msg} {s s' : ContractState} {ev : List ContractEvent}
    (h : stepFn m .unpause s = .ok (s', ev)) :
    s' = { s with paused := false } := by
  simp only [stepFn] at h
  unfold unpause at h
  split at h
  · cases h
  · cases h; rfl

theorem setCooldownSeconds_ok {m : Msg} {c : Nat} {s s' : ContractState} {ev : List ContractEvent}
    (h : stepFn m (.setCooldownSeconds c) s = .ok (s', ev)) :
    s' = { s with cooldownSeconds := c } := by
  simp only [stepFn] at h
  unfold setCooldownSeconds at h
  split at h
  · cases h
  · cases h; rfl

theorem openBatch_ok {m : Msg} {s s' : ContractState} {ev : List ContractEvent}
    (h : stepFn m .openBatch s = .ok (s', ev)) :
    s' = { s with
      currentBatchId := s.currentBatchId + 1
      batches := Function.update s.batches (s.currentBatchId + 1)
        { s.batches (s.currentBatchId + 1) with isOpen := true, numNFTs := 0 } } := by
  simp only [stepFn] at h
  unfold openBatch at h
  split at h
  · cases h
  · cases h; rfl

theorem closeBatch_ok {m : Msg} {s s' : ContractState} {ev : List ContractEvent}
    (h : stepFn m .closeBatch s = .ok (s', ev)) :
    s' = { s with
      batches := Function.update s.batches s.currentBatchId
        { s.batches s.currentBatchId with isOpen := false } } := by
  simp only [stepFn] at h
  unfold closeBatch at h
  split at h
  · cases h
  split at h
  · cases h
  · cases h; rfl

theorem submitNFT_ok {m : Msg} {a1 a2 a3 : Euint32} {s s' : ContractState}
    {ev : List ContractEvent} (h : stepFn m (.submitNFT a1 a2 a3) s = .ok (s', ev)) :
    (s.batches s.currentBatchId).isOpen = true ∧
    s' = { s with
      batches := Function.update s.batches s.currentBatchId
        { s.batches s.currentBatchId with
          nftOwners := Function.update (s.batches s.currentBatchId).nftOwners
            (s.batches s.currentBatchId).numNFTs m.sender
          nftData := Function.update (s.batches s.currentBatchId).nftData
            (s.batches s.currentBatchId).numNFTs
            { attr1 := a1, attr2 := a2, attr3 := a3, inited := true }
          numNFTs := (s.batches s.currentBatchId).numNFTs + 1 }
      lastSubmissionTime := Function.update s.lastSubmissionTime m.sender m.timestamp } := by
  simp only [stepFn] at h
  unfold submitNFT at h
  split at h
  · cases h
  split at h
  · cases h
  split at h
  · cases h
  split at h
  · cases h
  split at h
  · cases h
  · rename_i hopen _
    cases h
    exact ⟨by simpa using hopen, rfl⟩

theorem fuseNFTs_ok {m : Msg} {bid : Nat} {s s' : ContractState} {ev : List ContractEvent}
    (h : stepFn m (.fuseNFTs bid) s = .ok (s', ev)) :
    ∃ t, batchAvgCts (s.batches bid) = .ok t ∧
      2 ≤ (s.batches bid).numNFTs ∧ bid ≠ 0 ∧ bid ≤ s.currentBatchId ∧
      s' = { s with
        decryptionContexts := Function.update s.decryptionContexts s.nextRequestId
          { batchId := bid, stateHash := avgHash t s.thisAddr, processed := false }
        nextRequestId := s.nextRequestId + 1
        lastRequestTime := Function.update s.lastRequestTime m.sender m.timestamp } := by
  simp only [stepFn] at h
  unfold fuseNFTs at h
  split at h
  · cases h
  split at h
  · cases h
  split at h
  · cases h
  split at h
  · cases h
  split at h
  · cases h
  split at h
  · cases h
  · rename_i t heq
    cases h
    refine ⟨t, heq, ?_, ?_, ?_, rfl⟩ <;> omega

theorem myCallback_ok {rid : Nat} {cl : List Nat} {sig : Bool} {m : Msg}
    {s s' : ContractState} {ev : List ContractEvent}
    (h : stepFn m (.myCallback rid cl sig) s = .ok (s', ev)) :
    (s.decryptionContexts rid).processed = false ∧
    ∃ t, batchAvgCts (s.batches (s.decryptionContexts rid).batchId) = .ok t ∧
      avgHash t s.thisAddr = (s.decryptionContexts rid).stateHash ∧
      sig = true ∧
      s' = { s with
        lastTokenId := s.lastTokenId + 1
        decryptionContexts := Function.update s.decryptionContexts rid
          { s.decryptionContexts rid with processed := true } } ∧
      ev = [.FusionCompleted rid (s.decryptionContexts rid).batchId (s.lastTokenId + 1)
              (cl.getD 0 0, cl.getD 1 0, cl.getD 2 0)] := by
  simp only [stepFn] at h
  unfold myCallback at h
  split at h
  · cases h
  split at h
  · cases h
  · rename_i hproc x t heq
    split at h
    · cases h
    split at h
    · cases h
    · rename_i hhash hsig
      cases h
      refine ⟨by simpa using hproc, t, heq, by simpa using hhash, by simpa using hsig, rfl, rfl⟩

/-! ### Reachability invariant -/

/-- Structural invariant of every reachable state: the batch counter started
at 1, batch 0 and batches beyond the current one were never written, and no
decryption context exists at or beyond the gateway's request-id counter. -/
def StateInv (s : ContractState) : Prop :=
  1 ≤ s.currentBatchId ∧
  (s.batches 0).numNFTs = 0 ∧
  (∀ b, s.currentBatchId < b → (s.batches b).numNFTs = 0) ∧
  (∀ rid, s.nextRequestId ≤ rid → s.decryptionContexts rid = emptyCtx)

theorem inv_init (deployer thisAddr : Nat) : StateInv (initState deployer thisAddr) := by
  refine ⟨le_refl 1, rfl, fun b _ => rfl, fun rid _ => rfl⟩

theorem inv_step {m : Msg} {op : Op} {s s' : ContractState} {ev : List ContractEvent}
    (hinv : StateInv s) (h : stepFn m op s = .ok (s', ev)) : StateInv s' := by
  obtain ⟨h1, h2, h3, h4⟩ := hinv
  cases op with
  | addProvider p => rw [addProvider_ok h]; exact ⟨h1, h2, h3, h4⟩
  | removeProvider p => rw [removeProvider_ok h]; exact ⟨h1, h2, h3, h4⟩
  | pause => rw [pause_ok h]; exact ⟨h1, h2, h3, h4⟩
  | unpause => rw [unpause_ok h]; exact ⟨h1, h2, h3, h4⟩
  | setCooldownSeconds c => rw [setCooldownSeconds_ok h]; exact ⟨h1, h2, h3, h4⟩
  | openBatch =>
    rw [openBatch_ok h]
    unfold StateInv
    dsimp only
    refine ⟨by omega, ?_, ?_, h4⟩
    · rw [Function.update_noteq (by omega)]
      exact h2
    · intro b hb
      rw [Function.update_noteq (by omega)]
      exact h3 b (by omega)
  | closeBatch =>
    rw [closeBatch_ok h]
    unfold StateInv
    dsimp only
    refine ⟨h1, ?_, ?_, h4⟩
    · rw [Function.update_noteq (by omega)]
      exact h2
    · intro b hb
      rw [Function.update_noteq (by omega)]
      exact h3 b hb
  | submitNFT a1 a2 a3 =>
    rw [(submitNFT_ok h).2]
    unfold StateInv
    dsimp only
    refine ⟨h1, ?_, ?_, h4⟩
    · rw [Function.update_noteq (by omega)]
      exact h2
    · intro b hb
      rw [Function.update_noteq (by omega)]
      exact h3 b hb
  | fuseNFTs bid =>
    obtain ⟨t, -, -, -, -, hs'⟩ := fuseNFTs_ok h
    rw [hs']
    unfold StateInv
    dsimp only
    refine ⟨h1, h2, h3, ?_⟩
    intro rid hrid
    rw [Function.update_noteq (by omega)]
    exact h4 rid (by omega)
  | myCallback rid cl sig =>
    obtain ⟨hproc, t, havg, hhash, -, hs', -⟩ := myCallback_ok h
    have hlt : rid < s.nextRequestId := by
      by_contra hge
      have hctx : s.decryptionContexts rid = emptyCtx := h4 rid (by omega)
      have h0 : avgHash t s.thisAddr = 0 := by
        rw [hhash, hctx]
        rfl
      exact hashCiphertexts_ne_zero _ _ h0
    rw [hs']
    unfold StateInv
    dsimp only
    refine ⟨h1, h2, h3, ?_⟩
    intro rid' hrid'
    rw [Function.update_noteq (by omega)]
    exact h4 rid' hrid'

theorem reachable_inv {s : ContractState} (h : Reachable s) : StateInv s := by
  induction h with
  | init deployer thisAddr => exact inv_init deployer thisAddr
  | step m op hs hok ih => exact inv_step ih hok

theorem batchAvgCts_of_empty {b : Batch} (h : b.numNFTs = 0) :
    batchAvgCts b = .ok (.divCt (asEuint32 0) (asEuint32 0),
      .divCt (asEuint32 0) (asEuint32 0), .divCt (asEuint32 0) (asEuint32 0)) := by
  simp [batchAvgCts, h, sumLoop, List.range_zero]

/-- C9: for a request id never recorded by `fuseNFTs` (its decryption
context is still the mapping default: batchId 0, stateHash 0, not
processed), `myCallback` on any reachable state always reverts with
`StateMismatch` and never emits `FusionCompleted`: batch 0 of a reachable
state has no entries, so the recomputation averages the empty batch
(dividing the encrypted zero sums by an encrypted zero) and the recomputed
keccak commitment (never zero in the collision-free keccak model) cannot
equal the zero `stateHash`. -/
theorem c9_unknown_request_rejects (s : ContractState) (m : Msg) (rid : Nat)
    (cl : List Nat) (sig : Bool) (hreach : Reachable s)
    (hctx : s.decryptionContexts rid = emptyCtx) :
    stepFn m (.myCallback rid cl sig) s = .error .StateMismatch ∧
      execEvents m (.myCallback rid cl sig) s = [] := by
  have h0 : (s.batches 0).numNFTs = 0 := (reachable_inv hreach).2.1
  have hmain : stepFn m (.myCallback rid cl sig) s = .error .StateMismatch := by
    simp only [stepFn]
    unfold myCallback
    rw [hctx]
    simp only [emptyCtx, batchAvgCts_of_empty h0]
    have hne : avgHash ((asEuint32 0).divCt (asEuint32 0), (asEuint32 0).divCt (asEuint32 0),
        (asEuint32 0).divCt (asEuint32 0)) s.thisAddr ≠ 0 := hashCiphertexts_ne_zero _ _
    simp only [Bool.false_eq_true, if_false]
    rw [if_pos hne]
  exact ⟨hmain, execEvents_of_error hmain⟩

theorem c9_witness :
    stepFn ⟨4, 9⟩ (.myCallback 5 [1, 2, 3] true) (initState 1 77) = .error .StateMismatch ∧
      execEvents ⟨4, 9⟩ (.myCallback 5 [1, 2, 3] true) (initState 1 77) = [] :=
  c9_unknown_request_rejects (initState 1 77) ⟨4, 9⟩ 5 [1, 2, 3] true
    (Reachable.init 1 77) rfl

/-! ### A concrete execution scenario (owner 1, contract address 77) -/

def scA : ContractState := initState 1 77

def scB : ContractState := execState ⟨1, 1⟩ (.addProvider 2) scA

def scC : ContractState := execState ⟨1, 2⟩ (.addProvider 3) scB

def scD : ContractState := execState ⟨1, 3⟩ .openBatch scC

def scE : ContractState :=
  execState ⟨2, 100⟩ (.submitNFT (asEuint32 10) (asEuint32 20) (asEuint32 30)) scD

def scF : ContractState :=
  execState ⟨3, 200⟩ (.submitNFT (asEuint32 20) (asEuint32 40) (asEuint32 50)) scE

def scG : ContractState := execState ⟨2, 300⟩ (.fuseNFTs 2) scF

def scH : ContractState := execState ⟨9, 400⟩ (.myCallback 0 [15, 30, 40] true) scG

/-- A state whose decryption context 3 is already processed. -/
def c2wState : ContractState :=
  { initState 1 77 with
    decryptionContexts :=
      Function.update (fun _ => emptyCtx) 3 { batchId := 1, stateHash := 5, processed := true } }

/-- C2: a callback for an already-processed request id always reverts with
`ReplayAttempt` (first conjunct); and under any successful operation on a
reachable state, the `processed` flag of every decryption context either
stays what it was or flips from false to true, the latter only in a
successful `myCallback` for exactly that request id — so `processed` flips
at most once and, once true, never changes again. -/
theorem c2_replay_guard :
    (∀ (s : ContractState) (m : Msg) (rid : Nat) (cl : List Nat) (sig : Bool),
        (s.decryptionContexts rid).processed = true →
        stepFn m (.myCallback rid cl sig) s = .error .ReplayAttempt) ∧
    (∀ (m : Msg) (op : Op) (s s' : ContractState) (ev : List ContractEvent),
        Reachable s → stepFn m op s = .ok (s', ev) → ∀ rid,
        (s'.decryptionContexts rid).processed = (s.decryptionContexts rid).processed ∨
          ((s.decryptionContexts rid).processed = false ∧
           (s'.decryptionContexts rid).processed = true ∧
           ∃ cl sig, op = .myCallback rid cl sig)) := by
  constructor
  · intro s m rid cl sig h
    simp only [stepFn]
    unfold myCallback
    rw [h]
    rfl
  · intro m op s s' ev hreach hok rid
    obtain ⟨-, -, -, h4⟩ := reachable_inv hreach
    cases op with
    | addProvider p => exact Or.inl (by rw [addProvider_ok hok])
    | removeProvider p => exact Or.inl (by rw [removeProvider_ok hok])
    | pause => exact Or.inl (by rw [pause_ok hok])
    | unpause => exact Or.inl (by rw [unpause_ok hok])
    | setCooldownSeconds c => exact Or.inl (by rw [setCooldownSeconds_ok hok])
    | openBatch => exact Or.inl (by rw [openBatch_ok hok])
    | closeBatch => exact Or.inl (by rw [closeBatch_ok hok])
    | submitNFT a1 a2 a3 => exact Or.inl (by rw [(submitNFT_ok hok).2])
    | fuseNFTs bid =>
      obtain ⟨t, -, -, -, -, hs'⟩ := fuseNFTs_ok hok
      rw [hs']
      dsimp only
      by_cases hr : rid = s.nextRequestId
      · rw [hr, Function.update_same, h4 s.nextRequestId (le_refl _)]
        exact Or.inl rfl
      · rw [Function.update_noteq hr]
        exact Or.inl rfl
    | myCallback rid0 cl0 sig0 =>
      obtain ⟨hproc, t, -, -, -, hs', -⟩ := myCallback_ok hok
      rw [hs']
      dsimp only
      by_cases hr : rid = rid0
      · subst hr
        rw [Function.update_same]
        exact Or.inr ⟨hproc, rfl, cl0, sig0, rfl⟩
      · rw [Function.update_noteq hr]
        exact Or.inl rfl

theorem c2_witness :
    stepFn ⟨9, 0⟩ (.myCallback 3 [] true) c2wState = .error .ReplayAttempt ∧
      (((execState ⟨1, 1⟩ (.addProvider 2) scA).decryptionContexts 0).processed =
          ((scA.decryptionContexts 0).processed) ∨
        ((scA.decryptionContexts 0).processed = false ∧
         ((execState ⟨1, 1⟩ (.addProvider 2) scA).decryptionContexts 0).processed = true ∧
         ∃ cl sig, Op.addProvider 2 = Op.myCallback 0 cl sig)) :=
  ⟨c2_replay_guard.1 c2wState ⟨9, 0⟩ 3 [] true (by decide),
   c2_replay_guard.2 ⟨1, 1⟩ (.addProvider 2) scA _ _ (Reachable.init 1 77) rfl 0⟩

/-- C6: the batch structure is owner-gated and append-only: a batch's
`isOpen` flag is changed only by `openBatch`/`closeBatch` (first conjunct);
those two functions revert with `NotOwner` for any caller other than the
owner (second conjunct); on reachable states every successful operation
preserves the per-entry owner and attribute data already stored at indices
below `numNFTs` and never decreases `numNFTs` — `submitNFT` writes only at
index `numNFTs` before incrementing it (third conjunct); and submission
reverts whenever the current batch is not open (fourth conjunct). -/
theorem c6_owner_gated_append_only :
    (∀ (m : Msg) (op : Op) (s s' : ContractState) (ev : List ContractEvent),
        stepFn m op s = .ok (s', ev) → op ≠ .openBatch → op ≠ .closeBatch →
        ∀ b, (s'.batches b).isOpen = (s.batches b).isOpen) ∧
    (∀ (m : Msg) (s : ContractState), m.sender ≠ s.owner →
        stepFn m .openBatch s = .error .NotOwner ∧
        stepFn m .closeBatch s = .error .NotOwner) ∧
    (∀ (m : Msg) (op : Op) (s s' : ContractState) (ev : List ContractEvent),
        Reachable s → stepFn m op s = .ok (s', ev) →
        ∀ b, (s.batches b).numNFTs ≤ (s'.batches b).numNFTs ∧
          ∀ i, i < (s.batches b).numNFTs →
            (s'.batches b).nftOwners i = (s.batches b).nftOwners i ∧
            (s'.batches b).nftData i = (s.batches b).nftData i) ∧
    (∀ (m : Msg) (a1 a2 a3 : Euint32) (s : ContractState),
        (s.batches s.currentBatchId).isOpen = false →
        ∃ e, stepFn m (.submitNFT a1 a2 a3) s = .error e) := by
  refine ⟨?_, ?_, ?_, ?_⟩
  · intro m op s s' ev hok hno hnc b
    cases op with
    | openBatch => exact absurd rfl hno
    | closeBatch => exact absurd rfl hnc
    | addProvider p => rw [addProvider_ok hok]
    | removeProvider p => rw [removeProvider_ok hok]
    | pause => rw [pause_ok hok]
    | unpause => rw [unpause_ok hok]
    | setCooldownSeconds c => rw [setCooldownSeconds_ok hok]
    | submitNFT a1 a2 a3 =>
      rw [(submitNFT_ok hok).2]
      dsimp only
      by_cases hb : b = s.currentBatchId
      · rw [hb, Function.update_same]
      · rw [Function.update_noteq hb]
    | fuseNFTs bid =>
      obtain ⟨t, -, -, -, -, hs'⟩ := fuseNFTs_ok hok
      rw [hs']
    | myCallback rid cl sig =>
      obtain ⟨-, t, -, -, -, hs', -⟩ := myCallback_ok hok
      rw [hs']
  · intro m s hne
    constructor
    · simp only [stepFn]
      unfold openBatch
      rw [if_pos hne]
    · simp only [stepFn]
      unfold closeBatch
      rw [if_pos hne]
  · intro m op s s' ev hreach hok b
    obtain ⟨-, -, h3, -⟩ := reachable_inv hreach
    cases op with
    | addProvider p => rw [addProvider_ok hok]; exact ⟨le_refl _, fun i _ => ⟨rfl, rfl⟩⟩
    | removeProvider p => rw [removeProvider_ok hok]; exact ⟨le_refl _, fun i _ => ⟨rfl, rfl⟩⟩
    | pause => rw [pause_ok hok]; exact ⟨le_refl _, fun i _ => ⟨rfl, rfl⟩⟩
    | unpause => rw [unpause_ok hok]; exact ⟨le_refl _, fun i _ => ⟨rfl, rfl⟩⟩
    | setCooldownSeconds c =>
      rw [setCooldownSeconds_ok hok]; exact ⟨le_refl _, fun i _ => ⟨rfl, rfl⟩⟩
    | openBatch =>
      rw [openBatch_ok hok]
      dsimp only
      by_cases hb : b = s.currentBatchId + 1
      · have h0 : (s.batches (s.currentBatchId + 1)).numNFTs = 0 := h3 _ (by omega)
        rw [hb, Function.update_same]
        dsimp only
        exact ⟨by omega, fun i hi => by omega⟩
      · rw [Function.update_noteq hb]
        exact ⟨le_refl _, fun i _ => ⟨rfl, rfl⟩⟩
    | closeBatch =>
      rw [closeBatch_ok hok]
      dsimp only
      by_cases hb : b = s.currentBatchId
      · rw [hb, Function.update_same]
        exact ⟨le_refl _, fun i _ => ⟨rfl, rfl⟩⟩
      · rw [Function.update_noteq hb]
        exact ⟨le_refl _, fun i _ => ⟨rfl, rfl⟩⟩
    | submitNFT a1 a2 a3 =>
      rw [(submitNFT_ok hok).2]
      dsimp only
      by_cases hb : b = s.currentBatchId
      · rw [hb, Function.update_same]
        dsimp only
        refine ⟨Nat.le_succ _, fun i hi => ?_⟩
        constructor
        · rw [Function.update_noteq (by omega)]
        · rw [Function.update_noteq (by omega)]
      · rw [Function.update_noteq hb]
        exact ⟨le_refl _, fun i _ => ⟨rfl, rfl⟩⟩
    | fuseNFTs bid =>
      obtain ⟨t, -, -, -, -, hs'⟩ := fuseNFTs_ok hok
      rw [hs']
      exact ⟨le_refl _, fun i _ => ⟨rfl, rfl⟩⟩
    | myCallback rid cl sig =>
      obtain ⟨-, t, -, -, -, hs', -⟩ := myCallback_ok hok
      rw [hs']
      exact ⟨le_refl _, fun i _ => ⟨rfl, rfl⟩⟩
  · intro m a1 a2 a3 s hclosed
    simp only [stepFn]
    unfold submitNFT
    split
    · exact ⟨_, rfl⟩
    split
    · exact ⟨_, rfl⟩
    split
    · exact ⟨_, rfl⟩
    exact ⟨.BatchClosed, by rw [hclosed]; rfl⟩

theorem c6_witness :
    ((execState ⟨1, 1⟩ (.addProvider 2) scA).batches 1).isOpen = (scA.batches 1).isOpen ∧
    stepFn ⟨2, 0⟩ .openBatch scA = .error .NotOwner ∧
    stepFn ⟨2, 0⟩ .closeBatch scA = .error .NotOwner ∧
    (scA.batches 1).numNFTs ≤ ((execState ⟨1, 5⟩ .pause scA).batches 1).numNFTs ∧
    (∃ e, stepFn ⟨1, 50⟩ (.submitNFT (asEuint32 1) (asEuint32 2) (asEuint32 3)) scA = .error e) :=
  ⟨c6_owner_gated_append_only.1 ⟨1, 1⟩ (.addProvider 2) scA _ _ rfl (by decide) (by decide) 1,
   (c6_owner_gated_append_only.2.1 ⟨2, 0⟩ scA (by decide)).1,
   (c6_owner_gated_append_only.2.1 ⟨2, 0⟩ scA (by decide)).2,
   (c6_owner_gated_append_only.2.2.1 ⟨1, 5⟩ .pause scA _ _ (Reachable.init 1 77) rfl 1).1,
   c6_owner_gated_append_only.2.2.2 ⟨1, 50⟩ (asEuint32 1) (asEuint32 2) (asEuint32 3) scA
     (by decide)⟩

/-- C10: batches with an id smaller than `currentBatchId` are permanently
frozen whatever their `isOpen` flag: every successful operation preserves
their entry count and contents (first conjunct); `currentBatchId` never
decreases, so they stay below it forever (second conjunct); and `openBatch`
does not touch the `isOpen` flag of the previously current batch (third
conjunct). -/
theorem c10_past_batches_frozen :
    (∀ (m : Msg) (op : Op) (s s' : ContractState) (ev : List ContractEvent),
        stepFn m op s = .ok (s', ev) → ∀ b, b < s.currentBatchId →
          (s'.batches b).numNFTs = (s.batches b).numNFTs ∧
          ∀ i, (s'.batches b).nftOwners i = (s.batches b).nftOwners i ∧
               (s'.batches b).nftData i = (s.batches b).nftData i) ∧
    (∀ (m : Msg) (op : Op) (s s' : ContractState) (ev : List ContractEvent),
        stepFn m op s = .ok (s', ev) → s.currentBatchId ≤ s'.currentBatchId) ∧
    (∀ (m : Msg) (s s' : ContractState) (ev : List ContractEvent),
        stepFn m .openBatch s = .ok (s', ev) →
        (s'.batches s.currentBatchId).isOpen = (s.batches s.currentBatchId).isOpen) := by
  refine ⟨?_, ?_, ?_⟩
  · intro m op s s' ev hok b hb
    cases op with
    | addProvider p => rw [addProvider_ok hok]; exact ⟨rfl, fun i => ⟨rfl, rfl⟩⟩
    | removeProvider p => rw [removeProvider_ok hok]; exact ⟨rfl, fun i => ⟨rfl, rfl⟩⟩
    | pause => rw [pause_ok hok]; exact ⟨rfl, fun i => ⟨rfl, rfl⟩⟩
    | unpause => rw [unpause_ok hok]; exact ⟨rfl, fun i => ⟨rfl, rfl⟩⟩
    | setCooldownSeconds c =>
      rw [setCooldownSeconds_ok hok]; exact ⟨rfl, fun i => ⟨rfl, rfl⟩⟩
    | openBatch =>
      rw [openBatch_ok hok]
      dsimp only
      rw [Function.update_noteq (by omega)]
      exact ⟨rfl, fun i => ⟨rfl, rfl⟩⟩
    | closeBatch =>
      rw [closeBatch_ok hok]
      dsimp only
      rw [Function.update_noteq (by omega)]
      exact ⟨rfl, fun i => ⟨rfl, rfl⟩⟩
    | submitNFT a1 a2 a3 =>
      rw [(submitNFT_ok hok).2]
      dsimp only
      rw [Function.update_noteq (by omega)]
      exact ⟨rfl, fun i => ⟨rfl, rfl⟩⟩
    | fuseNFTs bid =>
      obtain ⟨t, -, -, -, -, hs'⟩ := fuseNFTs_ok hok
      rw [hs']
      exact ⟨rfl, fun i => ⟨rfl, rfl⟩⟩
    | myCallback rid cl sig =>
      obtain ⟨-, t, -, -, -, hs', -⟩ := myCallback_ok hok
      rw [hs']
      exact ⟨rfl, fun i => ⟨rfl, rfl⟩⟩
  · intro m op s s' ev hok
    cases op with
    | addProvider p => rw [addProvider_ok hok]
    | removeProvider p => rw [removeProvider_ok hok]
    | pause => rw [pause_ok hok]
    | unpause => rw [unpause_ok hok]
    | setCooldownSeconds c => rw [setCooldownSeconds_ok hok]
    | openBatch =>
      rw [openBatch_ok hok]
      exact Nat.le_succ _
    | closeBatch => rw [closeBatch_ok hok]
    | submitNFT a1 a2 a3 => rw [(submitNFT_ok hok).2]
    | fuseNFTs bid =>
      obtain ⟨t, -, -, -, -, hs'⟩ := fuseNFTs_ok hok
      rw [hs']
    | myCallback rid cl sig =>
      obtain ⟨-, t, -, -, -, hs', -⟩ := myCallback_ok hok
      rw [hs']
  · intro m s s' ev hok
    rw [openBatch_ok hok]
    dsimp only
    rw [Function.update_noteq (by omega)]

theorem c10_witness :
    ((execState ⟨1, 5⟩ .pause scA).batches 0).numNFTs = (scA.batches 0).numNFTs ∧
    scA.currentBatchId ≤ (execState ⟨1, 5⟩ .pause scA).currentBatchId ∧
    ((execState ⟨1, 5⟩ .openBatch scA).batches 1).isOpen = (scA.batches 1).isOpen :=
  ⟨(c10_past_batches_frozen.1 ⟨1, 5⟩ .pause scA _ _ rfl 0 (by decide)).1,
   c10_past_batches_frozen.2.1 ⟨1, 5⟩ .pause scA _ _ rfl,
   c10_past_batches_frozen.2.2 ⟨1, 5⟩ scA _ _ rfl⟩

theorem sumLoop_ok_inited {b : Batch} {l : List Nat} {acc t : Euint32 × Euint32 × Euint32}
    (h : sumLoop b l acc = .ok t) : ∀ i ∈ l, (b.nftData i).inited = true := by
  induction l generalizing acc with
  | nil => intro i hi; cases hi
  | cons j rest ih =>
    intro i hi
    unfold sumLoop at h
    by_cases hj : (b.nftData j).inited = true
    · rw [if_pos hj] at h
      rcases List.mem_cons.mp hi with hij | hir
      · rw [hij]; exact hj
      · exact ih h i hir
    · rw [if_neg hj] at h
      cases h

theorem batchAvgCts_eval (b : Batch)
    (hinit : ∀ i, i < b.numNFTs → (b.nftData i).inited = true)
    (hn2 : 2 ≤ b.numNFTs) (hM : b.numNFTs < euM) :
    ∃ t, batchAvgCts b = .ok t ∧
      t.1.eval =
        (((List.range b.numNFTs).map (fun i => (b.nftData i).attr1.eval)).sum % euM) /
          b.numNFTs ∧
      t.2.1.eval =
        (((List.range b.numNFTs).map (fun i => (b.nftData i).attr2.eval)).sum % euM) /
          b.numNFTs ∧
      t.2.2.eval =
        (((List.range b.numNFTs).map (fun i => (b.nftData i).attr3.eval)).sum % euM) /
          b.numNFTs := by
  obtain ⟨⟨t1, t2, t3⟩, hok, h1, h2, h3⟩ :=
    sumLoop_eval b (List.range b.numNFTs) (asEuint32 0, asEuint32 0, asEuint32 0)
      (fun i hi => hinit i (List.mem_range.mp hi))
  have hdiv : (asEuint32 b.numNFTs).eval = b.numNFTs := by
    simp [asEuint32, Euint32.eval, Nat.mod_eq_of_lt hM]
  have hne : (asEuint32 b.numNFTs).eval ≠ 0 := by omega
  have hzero : (asEuint32 0).eval = 0 := by simp [asEuint32, Euint32.eval]
  refine ⟨(.divCt t1 (asEuint32 b.numNFTs), .divCt t2 (asEuint32 b.numNFTs),
           .divCt t3 (asEuint32 b.numNFTs)), by simp [batchAvgCts, hok], ?_, ?_, ?_⟩
  · show (if (asEuint32 b.numNFTs).eval = 0 then euM - 1 else t1.eval / (asEuint32 b.numNFTs).eval) = _
    rw [if_neg hne, hdiv, h1, hzero, Nat.zero_add]
  · show (if (asEuint32 b.numNFTs).eval = 0 then euM - 1 else t2.eval / (asEuint32 b.numNFTs).eval) = _
    rw [if_neg hne, hdiv, h2, hzero, Nat.zero_add]
  · show (if (asEuint32 b.numNFTs).eval = 0 then euM - 1 else t3.eval / (asEuint32 b.numNFTs).eval) = _
    rw [if_neg hne, hdiv, h3, hzero, Nat.zero_add]

/-- C3: whenever `fuseNFTs` succeeds on a batch (at least 2 submitted,
initialized entries; entry count below 2^32), decrypting the ciphertext
triple it submits to the oracle yields, componentwise, the arithmetic mean
with truncating integer division of the submitted entries' attribute values
under euint32 arithmetic: the sum over all entries taken modulo 2^32,
divided by `numNFTs`. -/
theorem c3_fuse_averages (s : ContractState) (m : Msg) (bid : Nat)
    (s' : ContractState) (ev : List ContractEvent)
    (hok : stepFn m (.fuseNFTs bid) s = .ok (s', ev))
    (hM : (s.batches bid).numNFTs < euM) :
    ∃ t, batchAvgCts (s.batches bid) = .ok t ∧
      t.1.eval =
        (((List.range (s.batches bid).numNFTs).map
            (fun i => ((s.batches bid).nftData i).attr1.eval)).sum % euM) /
          (s.batches bid).numNFTs ∧
      t.2.1.eval =
        (((List.range (s.batches bid).numNFTs).map
            (fun i => ((s.batches bid).nftData i).attr2.eval)).sum % euM) /
          (s.batches bid).numNFTs ∧
      t.2.2.eval =
        (((List.range (s.batches bid).numNFTs).map
            (fun i => ((s.batches bid).nftData i).attr3.eval)).sum % euM) /
          (s.batches bid).numNFTs := by
  obtain ⟨t0, havg, hn2, -, -, -⟩ := fuseNFTs_ok hok
  have hsum : ∃ u, sumLoop (s.batches bid) (List.range (s.batches bid).numNFTs)
      (asEuint32 0, asEuint32 0, asEuint32 0) = .ok u := by
    unfold batchAvgCts at havg
    cases hu : sumLoop (s.batches bid) (List.range (s.batches bid).numNFTs)
        (asEuint32 0, asEuint32 0, asEuint32 0) with
    | error e => rw [hu] at havg; cases havg
    | ok u => exact ⟨u, rfl⟩
  obtain ⟨u, hu⟩ := hsum
  have hinit : ∀ i, i < (s.batches bid).numNFTs → ((s.batches bid).nftData i).inited = true :=
    fun i hi => sumLoop_ok_inited hu i (List.mem_range.mpr hi)
  exact batchAvgCts_eval (s.batches bid) hinit hn2 hM

theorem c3_witness :
    ∃ t, batchAvgCts (scF.batches 2) = .ok t ∧
      t.1.eval =
        (((List.range (scF.batches 2).numNFTs).map
            (fun i => ((scF.batches 2).nftData i).attr1.eval)).sum % euM) /
          (scF.batches 2).numNFTs ∧
      t.2.1.eval =
        (((List.range (scF.batches 2).numNFTs).map
            (fun i => ((scF.batches 2).nftData i).attr2.eval)).sum % euM) /
          (scF.batches 2).numNFTs ∧
      t.2.2.eval =
        (((List.range (scF.batches 2).numNFTs).map
            (fun i => ((scF.batches 2).nftData i).attr3.eval)).sum % euM) /
          (scF.batches 2).numNFTs :=
  c3_fuse_averages scF ⟨2, 300⟩ 2 scG (execEvents ⟨2, 300⟩ (.fuseNFTs 2) scF) rfl
    (by decide)

/-- C5: the end-to-end scenario.  From a fresh deployment (owner 1), the
owner registers providers 2 and 3 and opens a batch (id 2); providers 2 and
3 each submit an initialized attribute triple (10,20,30) and (20,40,50);
provider 2 calls `fuseNFTs` on batch 2 (request id 0); the honest oracle
decrypts the submitted ciphertexts to exactly (15,30,40) — the truncating
averages; the callback on the unchanged batch state with a valid proof
succeeds and emits exactly one `FusionCompleted` event carrying token id
`lastTokenId + 1 = 1` (pre-callback `lastTokenId` is 0) and the decoded
averages; a second callback with the same request id reverts with
`ReplayAttempt`. -/
theorem c5_end_to_end :
    (stepFn ⟨1, 1⟩ (.addProvider 2) scA).isOk = true ∧
    (stepFn ⟨1, 2⟩ (.addProvider 3) scB).isOk = true ∧
    (stepFn ⟨1, 3⟩ .openBatch scC).isOk = true ∧
    (stepFn ⟨2, 100⟩ (.submitNFT (asEuint32 10) (asEuint32 20) (asEuint32 30)) scD).isOk = true ∧
    (stepFn ⟨3, 200⟩ (.submitNFT (asEuint32 20) (asEuint32 40) (asEuint32 50)) scE).isOk = true ∧
    (stepFn ⟨2, 300⟩ (.fuseNFTs 2) scF).isOk = true ∧
    scG.lastTokenId = 0 ∧
    (batchAvgCts (scG.batches 2)).map (fun t => (t.1.eval, t.2.1.eval, t.2.2.eval)) =
      .ok (15, 30, 40) ∧
    (stepFn ⟨9, 400⟩ (.myCallback 0 [15, 30, 40] true) scG).isOk = true ∧
    execEvents ⟨9, 400⟩ (.myCallback 0 [15, 30, 40] true) scG =
      [.FusionCompleted 0 2 1 (15, 30, 40)] ∧
    stepFn ⟨9, 500⟩ (.myCallback 0 [15, 30, 40] true) scH = .error .ReplayAttempt := by
  refine ⟨by decide, by decide, by decide, by decide, by decide, by decide, by decide,
    by decide, by decide, by decide, rfl⟩

/-!
### Frontend model (src/frontend/web/src/App.tsx)

JS strings are modelled as `List Char`; the JS `number` fields of
`NFTAttribute` as `Int` (the claims concern integer values).  The browser
builtins `btoa`/`atob` are modelled as real base64 over the Latin-1 byte
projection of the string; `Number(...)` as a decimal-integer parser (its
NaN outcome, which the modelled flows never produce, is represented as 0,
like the JS coercion of an absent value is out of the modelled scope);
template-literal stringification of an integer as its decimal
representation.
-/

/-- `interface NFTAttribute`. -/
structure NFTAttribute where
  attack : Int
  defense : Int
  speed : Int
  rarity : Int
deriving DecidableEq, Repr

/-- The decimal digit characters. -/
def digitChar (d : Nat) : Char :=
  match d with
  | 0 => '0' | 1 => '1' | 2 => '2' | 3 => '3' | 4 => '4'
  | 5 => '5' | 6 => '6' | 7 => '7' | 8 => '8' | _ => '9'

/-- Fuel-driven decimal representation (most significant digit first);
any fuel above the value itself is enough. -/
def natToCharsAux : Nat → Nat → List Char
  | 0, _ => []
  | fuel + 1, n =>
    if n < 10 then [digitChar n]
    else natToCharsAux fuel (n / 10) ++ [digitChar (n % 10)]

/-- Decimal representation of a natural number (most significant first). -/
def natToChars (n : Nat) : List Char := natToCharsAux (n + 1) n

/-- JS template-literal stringification of an integer-valued number. -/
def intToChars (i : Int) : List Char :=
  if i < 0 then '-' :: natToChars i.natAbs else natToChars i.toNat

/-- Value of a decimal digit character, if it is one. -/
def digitVal (c : Char) : Option Nat :=
  if 48 ≤ c.toNat ∧ c.toNat ≤ 57 then some (c.toNat - 48) else none

/-- Accumulating decimal parser over a digit string. -/
def parseNatAux (acc : Nat) : List Char → Option Nat
  | [] => some acc
  | c :: rest =>
    match digitVal c with
    | some d => parseNatAux (acc * 10 + d) rest
    | none => none

/-- Modelled from the JS `Number(...)` coercion, restricted to
optional-minus decimal strings (all the round trip produces); `Number("")`
is 0, and non-numeric outcomes are represented as 0. -/
def jsNumber : List Char → Int
  | [] => 0
  | c :: rest =>
    if c = '-' then
      match parseNatAux 0 rest with
      | some n => -(n : Int)
      | none => 0
    else
      match parseNatAux 0 (c :: rest) with
      | some n => (n : Int)
      | none => 0

/-- JS `String.prototype.split(',')`. -/
def splitComma : List Char → List (List Char)
  | [] => [[]]
  | c :: rest =>
    if c = ',' then [] :: splitComma rest
    else
      match splitComma rest with
      | [] => [[c]]
      | p :: ps => (c :: p) :: ps

/-- The base64 alphabet. -/
def b64Chars : List Char :=
  ['A', 'B', 'C', 'D', 'E', 'F', 'G', 'H', 'I', 'J', 'K', 'L', 'M',
   'N', 'O', 'P', 'Q', 'R', 'S', 'T', 'U', 'V', 'W', 'X', 'Y', 'Z',
   'a', 'b', 'c', 'd', 'e', 'f', 'g', 'h', 'i', 'j', 'k', 'l', 'm',
   'n', 'o', 'p', 'q', 'r', 's', 't', 'u', 'v', 'w', 'x', 'y', 'z',
   '0', '1', '2', '3', '4', '5', '6', '7', '8', '9', '+', '/']

/-- Character of a six-bit value. -/
def sextetChar (n : Nat) : Char := b64Chars.getD n 'A'

/-- Six-bit value of a base64 character. -/
def sextetOf (c : Char) : Nat := b64Chars.indexOf c

/-- Base64 encoding of a byte list, with `=` padding. -/
def b64EncodeBytes : List Nat → List Char
  | b1 :: b2 :: b3 :: rest =>
    sextetChar (b1 / 4) :: sextetChar ((b1 % 4) * 16 + b2 / 16) ::
      sextetChar ((b2 % 16) * 4 + b3 / 64) :: sextetChar (b3 % 64) ::
      b64EncodeBytes rest
  | [b1, b2] =>
    [sextetChar (b1 / 4), sextetChar ((b1 % 4) * 16 + b2 / 16),
     sextetChar ((b2 % 16) * 4), '=']
  | [b1] =>
    [sextetChar (b1 / 4), sextetChar ((b1 % 4) * 16), '=', '=']
  | [] => []

/-- Base64 decoding of a canonical base64 character list. -/
def b64DecodeChars : List Char → List Nat
  | c1 :: c2 :: c3 :: c4 :: rest =>
    if c3 = '=' then [sextetOf c1 * 4 + sextetOf c2 / 16]
    else if c4 = '=' then
      [sextetOf c1 * 4 + sextetOf c2 / 16, (sextetOf c2 % 16) * 16 + sextetOf c3 / 4]
    else
      (sextetOf c1 * 4 + sextetOf c2 / 16) ::
        ((sextetOf c2 % 16) * 16 + sextetOf c3 / 4) ::
        ((sextetOf c3 % 4) * 64 + sextetOf c4) :: b64DecodeChars rest
  | _ => []

/-- Modelled from the browser `btoa` builtin: base64 of the Latin-1 bytes
of the string (`btoa` throws on code points above 255; the modelled flows
only ever pass ASCII). -/
def btoa (s : List Char) : List Char := b64EncodeBytes (s.map (fun c => c.toNat % 256))

/-- Modelled from the browser `atob` builtin: the Latin-1 string of the
decoded bytes. -/
def atob (s : List Char) : List Char := (b64DecodeChars s).map (fun b => Char.ofNat b)

/-- The `data` template literal of `FHEEncryptAttributes`:
attack, defense, speed, rarity joined by commas. -/
def attrData (a : NFTAttribute) : List Char :=
  intToChars a.attack ++
    (',' :: (intToChars a.defense ++ (',' :: (intToChars a.speed ++
      (',' :: intToChars a.rarity)))))

/-- `FHEEncryptAttributes`: the `FHE-` tag followed by `btoa(data)`. -/
def FHEEncryptAttributes (a : NFTAttribute) : List Char :=
  ['F', 'H', 'E', '-'] ++ btoa (attrData a)

/-- `FHEDecryptAttributes`: if the string starts with `FHE-`, strip the tag,
`atob` the rest, split on commas and coerce the four parts with `Number`;
otherwise return the all-zero attributes. -/
def FHEDecryptAttributes (encryptedData : List Char) : NFTAttribute :=
  if encryptedData.take 4 = ['F', 'H', 'E', '-'] then
    let parts := splitComma (atob (encryptedData.drop 4))
    { attack := jsNumber (parts.getD 0 [])
      defense := jsNumber (parts.getD 1 [])
      speed := jsNumber (parts.getD 2 [])
      rarity := jsNumber (parts.getD 3 []) }
  else { attack := 0, defense := 0, speed := 0, rarity := 0 }

/-! ### Frontend lemmas -/

theorem digitChar_spec (d : Nat) :
    (digitChar d).toNat < 256 ∧ digitChar d ≠ ',' ∧ digitChar d ≠ '-' := by
  unfold digitChar
  split <;> exact ⟨by decide, by decide, by decide⟩

theorem digitVal_digitChar : ∀ d, d < 10 → digitVal (digitChar d) = some d := by decide

theorem natToCharsAux_mem (fuel : Nat) :
    ∀ n, n < fuel → ∀ c ∈ natToCharsAux fuel n, ∃ d, d < 10 ∧ c = digitChar d := by
  induction fuel with
  | zero => intro n hn; omega
  | succ fuel ih =>
    intro n hn c hc
    unfold natToCharsAux at hc
    split at hc
    · rename_i h10
      rcases List.mem_singleton.mp hc with rfl
      exact ⟨n, h10, rfl⟩
    · rename_i h10
      rcases List.mem_append.mp hc with h1 | h2
      · exact ih (n / 10) (by omega) c h1
      · rcases List.mem_singleton.mp h2 with rfl
        exact ⟨n % 10, by omega, rfl⟩

theorem natToChars_mem (n : Nat) :
    ∀ c ∈ natToChars n, ∃ d, d < 10 ∧ c = digitChar d :=
  natToCharsAux_mem (n + 1) n (by omega)

theorem natToCharsAux_cons (fuel : Nat) :
    ∀ n, n < fuel → ∃ c rest, natToCharsAux fuel n = c :: rest ∧ ∃ d, d < 10 ∧ c = digitChar d := by
  induction fuel with
  | zero => intro n hn; omega
  | succ fuel ih =>
    intro n hn
    unfold natToCharsAux
    split
    · rename_i h10
      exact ⟨digitChar n, [], rfl, n, h10, rfl⟩
    · rename_i h10
      obtain ⟨c, rest, hcr, d, hd, hcd⟩ := ih (n / 10) (by omega)
      exact ⟨c, rest ++ [digitChar (n % 10)], by rw [hcr]; rfl, d, hd, hcd⟩

theorem parseNatAux_append (acc : Nat) (l1 l2 : List Char) :
    parseNatAux acc (l1 ++ l2) =
      match parseNatAux acc l1 with
      | some a => parseNatAux a l2
      | none => none := by
  induction l1 generalizing acc with
  | nil => rfl
  | cons c rest ih =>
    simp only [List.cons_append, parseNatAux]
    cases hdv : digitVal c with
    | some d =>
      simp only [hdv]
      exact ih (acc * 10 + d)
    | none => simp only [hdv]

theorem parseNatAux_natToCharsAux (fuel : Nat) :
    ∀ n acc, n < fuel →
      parseNatAux acc (natToCharsAux fuel n) =
        some (acc * 10 ^ (natToCharsAux fuel n).length + n) := by
  induction fuel with
  | zero => intro n acc hn; omega
  | succ fuel ih =>
    intro n acc hn
    unfold natToCharsAux
    split
    · rename_i h10
      simp [parseNatAux, digitVal_digitChar n h10]
    · rename_i h10
      rw [parseNatAux_append, ih (n / 10) acc (by omega)]
      show parseNatAux _ [digitChar (n % 10)] = _
      simp only [parseNatAux, digitVal_digitChar (n % 10) (by omega)]
      rw [List.length_append, List.length_singleton, pow_succ, ← mul_assoc]
      generalize acc * 10 ^ (natToCharsAux fuel (n / 10)).length = A
      have hdm := Nat.div_add_mod n 10
      congr 1
      omega

theorem parseNat_natToChars (n : Nat) : parseNatAux 0 (natToChars n) = some n := by
  have h := parseNatAux_natToCharsAux (n + 1) n 0 (by omega)
  simpa using h

theorem jsNumber_intToChars (i : Int) : jsNumber (intToChars i) = i := by
  unfold intToChars
  split
  · rename_i hneg
    show jsNumber ('-' :: natToChars i.natAbs) = i
    simp only [jsNumber, if_pos, parseNat_natToChars]
    omega
  · rename_i hpos
    obtain ⟨c, rest, hcr, d, hd, hcd⟩ := natToCharsAux_cons (i.toNat + 1) i.toNat (by omega)
    have hcr' : natToChars i.toNat = c :: rest := hcr
    have hcne : c ≠ '-' := by rw [hcd]; exact (digitChar_spec d).2.2
    rw [hcr']
    simp only [jsNumber, if_neg hcne]
    rw [← hcr', parseNat_natToChars]
    show (i.toNat : Int) = i
    omega

theorem splitComma_no_comma (l : List Char) (h : ∀ c ∈ l, c ≠ ',') :
    splitComma l = [l] := by
  induction l with
  | nil => rfl
  | cons c rest ih =>
    show splitComma (c :: rest) = [c :: rest]
    unfold splitComma
    rw [if_neg (h c (List.mem_cons_self c rest)),
        ih (fun x hx => h x (List.mem_cons_of_mem c hx))]

theorem splitComma_append (l1 l2 : List Char) (h : ∀ c ∈ l1, c ≠ ',') :
    splitComma (l1 ++ ',' :: l2) = l1 :: splitComma l2 := by
  induction l1 with
  | nil =>
    show splitComma (',' :: l2) = [] :: splitComma l2
    conv_lhs => unfold splitComma
    rw [if_pos rfl]
  | cons c rest ih =>
    show splitComma (c :: (rest ++ ',' :: l2)) = (c :: rest) :: splitComma l2
    conv_lhs => unfold splitComma
    rw [if_neg (h c (List.mem_cons_self c rest)),
        ih (fun x hx => h x (List.mem_cons_of_mem c hx))]

theorem intToChars_chars (i : Int) : ∀ c ∈ intToChars i, c.toNat < 256 ∧ c ≠ ',' := by
  intro c hc
  unfold intToChars at hc
  split at hc
  · rcases List.mem_cons.mp hc with rfl | hmem
    · exact ⟨by decide, by decide⟩
    · obtain ⟨d, -, rfl⟩ := natToChars_mem _ c hmem
      exact ⟨(digitChar_spec d).1, (digitChar_spec d).2.1⟩
  · obtain ⟨d, -, rfl⟩ := natToChars_mem _ c hc
    exact ⟨(digitChar_spec d).1, (digitChar_spec d).2.1⟩

theorem sextetOf_sextetChar : ∀ n, n < 64 → sextetOf (sextetChar n) = n := by decide

theorem sextetChar_ne_eq (n : Nat) : sextetChar n ≠ '=' := by
  by_cases h : n < 64
  · exact (by decide : ∀ m, m < 64 → sextetChar m ≠ '=') n h
  · unfold sextetChar
    have hlen : b64Chars.length ≤ n := by
      have : b64Chars.length = 64 := by decide
      omega
    rw [List.getD_eq_getElem?_getD, List.getElem?_eq_none hlen]
    decide

theorem b64_roundtrip : ∀ l : List Nat, (∀ x ∈ l, x < 256) →
    b64DecodeChars (b64EncodeBytes l) = l
  | [] => fun _ => rfl
  | [b1] => fun h => by
    have hb1 : b1 < 256 := h b1 (by simp)
    show b64DecodeChars [sextetChar (b1 / 4), sextetChar ((b1 % 4) * 16), '=', '='] = [b1]
    unfold b64DecodeChars
    rw [if_pos rfl, sextetOf_sextetChar _ (by omega), sextetOf_sextetChar _ (by omega)]
    have hb : b1 / 4 * 4 + (b1 % 4) * 16 / 16 = b1 := by omega
    rw [hb]
  | [b1, b2] => fun h => by
    have hb1 : b1 < 256 := h b1 (by simp)
    have hb2 : b2 < 256 := h b2 (by simp)
    show b64DecodeChars [sextetChar (b1 / 4), sextetChar ((b1 % 4) * 16 + b2 / 16),
      sextetChar ((b2 % 16) * 4), '='] = [b1, b2]
    unfold b64DecodeChars
    rw [if_neg (sextetChar_ne_eq _), if_pos rfl,
        sextetOf_sextetChar _ (by omega), sextetOf_sextetChar _ (by omega),
        sextetOf_sextetChar _ (by omega)]
    have hx : b1 / 4 * 4 + ((b1 % 4) * 16 + b2 / 16) / 16 = b1 := by omega
    have hy : ((b1 % 4) * 16 + b2 / 16) % 16 * 16 + (b2 % 16) * 4 / 4 = b2 := by omega
    rw [hx, hy]
  | b1 :: b2 :: b3 :: rest => fun h => by
    have hb1 : b1 < 256 := h b1 (by simp)
    have hb2 : b2 < 256 := h b2 (by simp)
    have hb3 : b3 < 256 := h b3 (by simp)
    have ih := b64_roundtrip rest (fun x hx => h x (by simp [hx]))
    show b64DecodeChars (sextetChar (b1 / 4) :: sextetChar ((b1 % 4) * 16 + b2 / 16) ::
      sextetChar ((b2 % 16) * 4 + b3 / 64) :: sextetChar (b3 % 64) ::
      b64EncodeBytes rest) = b1 :: b2 :: b3 :: rest
    unfold b64DecodeChars
    rw [if_neg (sextetChar_ne_eq _), if_neg (sextetChar_ne_eq _),
        sextetOf_sextetChar _ (by omega), sextetOf_sextetChar _ (by omega),
        sextetOf_sextetChar _ (by omega), sextetOf_sextetChar _ (by omega), ih]
    have hx : b1 / 4 * 4 + ((b1 % 4) * 16 + b2 / 16) / 16 = b1 := by omega
    have hy : ((b1 % 4) * 16 + b2 / 16) % 16 * 16 + ((b2 % 16) * 4 + b3 / 64) / 4 = b2 := by
      omega
    have hz : ((b2 % 16) * 4 + b3 / 64) % 4 * 64 + b3 % 64 = b3 := by omega
    rw [hx, hy, hz]

theorem atob_btoa (s : List Char) (h : ∀ c ∈ s, c.toNat < 256) : atob (btoa s) = s := by
  unfold atob btoa
  rw [b64_roundtrip (s.map (fun c => c.toNat % 256))
      (fun x hx => by
        obtain ⟨c, -, rfl⟩ := List.mem_map.mp hx
        omega)]
  rw [List.map_map]
  have hmap : ∀ c ∈ s, (Char.ofNat ∘ fun c => c.toNat % 256) c = c := by
    intro c hc
    have : c.toNat % 256 = c.toNat := Nat.mod_eq_of_lt (h c hc)
    simp [Function.comp, this, Char.ofNat_toNat]
  calc s.map (Char.ofNat ∘ fun c => c.toNat % 256) = s.map id := List.map_congr_left hmap
    _ = s := List.map_id s

/-- C8: the client encrypt-then-decrypt round trip is the identity on every
`NFTAttribute` with integer fields — the encoded string always starts with
the `FHE-` tag, the tag is stripped, `atob` undoes `btoa`, the comma split
recovers the four decimal strings and `Number` parses them back exactly;
and every input string that does not start with `FHE-` decrypts to the
all-zero attribute record. -/
theorem c8_encrypt_decrypt_roundtrip :
    (∀ a : NFTAttribute, FHEDecryptAttributes (FHEEncryptAttributes a) = a) ∧
    (∀ l : List Char, l.take 4 ≠ ['F', 'H', 'E', '-'] →
      FHEDecryptAttributes l = { attack := 0, defense := 0, speed := 0, rarity := 0 }) := by
  constructor
  · intro a
    have hchars : ∀ c ∈ attrData a, c.toNat < 256 := by
      intro c hc
      unfold attrData at hc
      rcases List.mem_append.mp hc with h1 | hrest
      · exact (intToChars_chars _ c h1).1
      rcases List.mem_cons.mp hrest with rfl | hrest
      · decide
      rcases List.mem_append.mp hrest with h2 | hrest
      · exact (intToChars_chars _ c h2).1
      rcases List.mem_cons.mp hrest with rfl | hrest
      · decide
      rcases List.mem_append.mp hrest with h3 | hrest
      · exact (intToChars_chars _ c h3).1
      rcases List.mem_cons.mp hrest with rfl | h4
      · decide
      exact (intToChars_chars _ c h4).1
    have hsplit : splitComma (attrData a) =
        [intToChars a.attack, intToChars a.defense, intToChars a.speed, intToChars a.rarity] := by
      unfold attrData
      rw [splitComma_append _ _ (fun c hc => (intToChars_chars _ c hc).2),
          splitComma_append _ _ (fun c hc => (intToChars_chars _ c hc).2),
          splitComma_append _ _ (fun c hc => (intToChars_chars _ c hc).2),
          splitComma_no_comma _ (fun c hc => (intToChars_chars _ c hc).2)]
    show FHEDecryptAttributes (['F', 'H', 'E', '-'] ++ btoa (attrData a)) = a
    unfold FHEDecryptAttributes
    rw [show (['F', 'H', 'E', '-'] ++ btoa (attrData a)).take 4 = ['F', 'H', 'E', '-'] from rfl]
    rw [if_pos rfl]
    rw [show (['F', 'H', 'E', '-'] ++ btoa (attrData a)).drop 4 = btoa (attrData a) from rfl]
    rw [atob_btoa (attrData a) hchars, hsplit]
    simp only [List.getD_cons_zero, List.getD_cons_succ]
    rw [jsNumber_intToChars, jsNumber_intToChars, jsNumber_intToChars, jsNumber_intToChars]
  · intro l hl
    unfold FHEDecryptAttributes
    rw [if_neg hl]

theorem c8_witness :
    FHEDecryptAttributes (FHEEncryptAttributes ⟨3, -5, 7, 0⟩) = ⟨3, -5, 7, 0⟩ ∧
    ['x', 'y'].take 4 ≠ ['F', 'H', 'E', '-'] ∧
    FHEDecryptAttributes ['x', 'y'] = ⟨0, 0, 0, 0⟩ :=
  ⟨c8_encrypt_decrypt_roundtrip.1 ⟨3, -5, 7, 0⟩, by decide,
   c8_encrypt_decrypt_roundtrip.2 ['x', 'y'] (by decide)⟩
